import Mathlib

/-!
Verification of the hierarchical hook-configuration engine of the
`claude-hooks` repository.

The definitions below are a shallow embedding of the Python sources
`hooks/config_loader.py`, `hooks/config_merger.py` and
`hooks/hook_filter.py`.  Python dictionaries parsed from the JSON
configuration files are modelled by typed structures with `Option`
fields (a `none` field models an absent dictionary key), Python lists
by Lean lists, and Python strings by Lean strings whose character
lists carry the semantics (all string primitives used below are
defined structurally over `String.data`, mirroring CPython string
semantics on POSIX, where `os.sep = '/'`).

External standard-library calls that are not part of the repository
(`fnmatch.fnmatch`, `os.path.relpath`) are abstracted as explicit
function parameters where the code invokes them; every piece of logic
that belongs to the repository itself is translated directly.
-/

/-- Python `s.startswith(p)`, modelled on the character list. -/
def strStartsWith (s p : String) : Bool :=
  p.data.isPrefixOf s.data

/-- Python `s.endswith(p)`, modelled on the character list. -/
def strEndsWith (s p : String) : Bool :=
  p.data.isSuffixOf s.data

/-- Python `c in s` for a single character. -/
def strContainsChar (s : String) (c : Char) : Bool :=
  s.data.contains c

/-- POSIX `os.path.basename`: everything after the last `'/'`. -/
def basenameOf (p : String) : String :=
  ⟨(p.data.reverse.takeWhile (fun c => c ≠ '/')).reverse⟩

/-- One hook definition: the typed model of the JSON hook dictionaries
handled by the engine.  A `none` field models an absent key.  The
`id` key is required by the configuration schema, so it is total. -/
structure Hook where
  id : String
  script : Option String := none
  priority : Option Int := none
  disabled : Option Bool := none
  file_patterns : Option (List String) := none
  tools : Option (List String) := none
  directories : Option (List String) := none
  config : Option (List (String × String)) := none
  description : Option String := none
deriving Repr, DecidableEq

/-- The `hooks` mapping of a configuration document: each of the three
event phases is an optional key holding an ordered hook list. -/
structure HookMap where
  pre : Option (List Hook) := none
  post : Option (List Hook) := none
  stp : Option (List Hook) := none
deriving Repr, DecidableEq

/-- The three event phases `pre-tool`, `post-tool`, `stop` — exactly
the keys the merging code iterates over. -/
inductive Phase where
  | preTool
  | postTool
  | stopPhase
deriving Repr, DecidableEq

def HookMap.get (hm : HookMap) : Phase → Option (List Hook)
  | Phase.preTool => hm.pre
  | Phase.postTool => hm.post
  | Phase.stopPhase => hm.stp

def HookMap.set (hm : HookMap) : Phase → Option (List Hook) → HookMap
  | Phase.preTool, v => { hm with pre := v }
  | Phase.postTool, v => { hm with post := v }
  | Phase.stopPhase, v => { hm with stp := v }

def emptyHookMap : HookMap := {}

/-- A parsed configuration document.  `others` holds the remaining
top-level keys (such as `version`) in dictionary insertion order;
real parsed dictionaries never repeat a key. -/
structure ConfigDoc where
  hooks : Option HookMap := none
  exclude : Option (List String) := none
  extends_ : Option String := none
  others : List (String × String) := []
deriving Repr, DecidableEq

def emptyDoc : ConfigDoc := {}

/-- Python dict truthiness for a document: a parsed `{}` is falsy. -/
def docTruthy (d : ConfigDoc) : Bool :=
  d.hooks.isSome || d.exclude.isSome || d.extends_.isSome || !d.others.isEmpty

/-- Python dictionary assignment `d[k] = v` on an association list:
an existing key keeps its position, a fresh key is appended. -/
def upsertKV (l : List (String × String)) (kv : String × String) :
    List (String × String) :=
  if l.any (fun p => p.1 = kv.1) then
    l.map (fun p => if p.1 = kv.1 then (p.1, kv.2) else p)
  else l ++ [kv]

/-- Python `list(set(l))`: deduplication.  CPython's set iteration
order is unspecified; the model fixes first-occurrence order.  No
theorem below depends on the order of this list. -/
def setDedup (l : List String) : List String :=
  l.foldl (fun acc x => if acc.contains x then acc else acc ++ [x]) []

/-- Array-field union of `_merge_hook_configs` (config_loader.py
lines 170-176): present override arrays are unioned into the base. -/
def mergeArrayField (b o : Option (List String)) : Option (List String) :=
  match o with
  | none => b
  | some ov =>
    match b with
    | some bv => some (setDedup (bv ++ ov))
    | none => some ov

/-- `HierarchicalConfigLoader._merge_hook_configs` (config_loader.py
lines 160-185): scalar keys overwritten when present in the override,
array keys unioned, `config` merged key-wise; every other key (`id`,
`description`, ...) is kept from the base hook. -/
def mergeHookConfigs (base_hook override_hook : Hook) : Hook :=
  { id := base_hook.id
    script := match override_hook.script with
      | some v => some v
      | none => base_hook.script
    priority := match override_hook.priority with
      | some v => some v
      | none => base_hook.priority
    disabled := match override_hook.disabled with
      | some v => some v
      | none => base_hook.disabled
    file_patterns := mergeArrayField base_hook.file_patterns override_hook.file_patterns
    tools := mergeArrayField base_hook.tools override_hook.tools
    directories := mergeArrayField base_hook.directories override_hook.directories
    config := match override_hook.config, base_hook.config with
      | some oc, some bc => some (oc.foldl upsertKV bc)
      | some oc, none => some oc
      | none, bc => bc
    description := base_hook.description }

/-- `HierarchicalConfigLoader._find_hook_index` (config_loader.py
lines 200-205): index of the first hook with the given id. -/
def findHookIndex (hooks : List Hook) (hook_id : String) : Option Nat :=
  match hooks with
  | [] => none
  | h :: rest =>
    if h.id = hook_id then some 0
    else (findHookIndex rest hook_id).map (· + 1)

/-- One iteration of the override loop of `_merge_configs`
(config_loader.py lines 141-151): an override hook whose id already
occurs is merged into the existing entry at its index, otherwise it
is appended. -/
def insertHook (acc : List Hook) (hook : Hook) : List Hook :=
  match findHookIndex acc hook.id with
  | some i =>
    match acc[i]? with
    | some existing => acc.set i (mergeHookConfigs existing hook)
    | none => acc
  | none => acc ++ [hook]

/-- The per-phase merge loop of `_merge_configs`: every override hook
is folded into the accumulated list in order. -/
def mergePhase (baseList ovList : List Hook) : List Hook :=
  ovList.foldl insertHook baseList

/-- `HierarchicalConfigLoader._remove_hook` (config_loader.py lines
187-198): drop every hook with the given id from each phase list that
is present. -/
def removeHook (config : ConfigDoc) (hook_id : String) : ConfigDoc :=
  { config with
    hooks := config.hooks.map (fun hm =>
      { pre := hm.pre.map (List.filter (fun h => h.id != hook_id))
        post := hm.post.map (List.filter (fun h => h.id != hook_id))
        stp := hm.stp.map (List.filter (fun h => h.id != hook_id)) }) }

/-- Phase step of `_merge_configs` (config_loader.py lines 135-151):
if the override's `hooks` mapping has this phase, the merged document
gets the phase key (created empty when missing) and the override
hooks are folded in. -/
def mergePhaseInto (merged override : ConfigDoc) (ph : Phase) : ConfigDoc :=
  match (override.hooks.getD emptyHookMap).get ph with
  | none => merged
  | some ovList =>
    let hm := merged.hooks.getD emptyHookMap
    let baseList := (hm.get ph).getD []
    { merged with hooks := some (hm.set ph (some (mergePhase baseList ovList))) }

/-- `HierarchicalConfigLoader._merge_configs` (config_loader.py lines
125-158): deep copy of the base (value semantics here), excludes
applied first, the three phases merged, then the remaining top-level
override keys copied over (`hooks`, `exclude`, `extends` excepted —
note that the base's own `exclude`/`extends` keys survive the deep
copy untouched). -/
def loaderMergeConfigs (base override : ConfigDoc) : ConfigDoc :=
  let merged := base
  let merged := match override.exclude with
    | some ex => ex.foldl removeHook merged
    | none => merged
  let merged := mergePhaseInto merged override Phase.preTool
  let merged := mergePhaseInto merged override Phase.postTool
  let merged := mergePhaseInto merged override Phase.stopPhase
  { merged with others := override.others.foldl upsertKV merged.others }

/-- `merge_hook_list` (config_merger.py lines 44-64): base hooks whose
id is excluded or overridden are dropped, the survivors keep base
order, and every overlay hook is appended afterwards.  The overlay
lookup only indexes hooks with a truthy (non-empty) id. -/
def mergerMergeHookList (base_list overlay_list : List Hook)
    (exclude_ids : List String) : List Hook :=
  base_list.filter (fun h =>
    !(exclude_ids.contains h.id)
    && !(overlay_list.any (fun o => o.id ≠ "" && o.id = h.id)))
  ++ overlay_list

/-- `merge_hooks` (config_merger.py lines 26-41): each of the three
phases is merged independently; a phase key appears in the result
only when its merged list is non-empty. -/
def mergerMergeHooks (base_hooks overlay_hooks : HookMap)
    (exclude_ids : List String) : HookMap :=
  let f := fun (b o : Option (List Hook)) =>
    let m := mergerMergeHookList (b.getD []) (o.getD []) exclude_ids
    if m.isEmpty then none else some m
  { pre := f base_hooks.pre overlay_hooks.pre
    post := f base_hooks.post overlay_hooks.post
    stp := f base_hooks.stp overlay_hooks.stp }

/-- `merge_configs` (config_merger.py lines 7-23): shallow copy of the
base, every overlay key except `hooks`/`exclude` copied over (so an
overlay `extends` key is copied, and the base's `exclude` key
survives), then the `hooks` key is always set to the merged hooks. -/
def mergerMergeConfigs (base overlay : ConfigDoc) : ConfigDoc :=
  { hooks := some (mergerMergeHooks (base.hooks.getD emptyHookMap)
      (overlay.hooks.getD emptyHookMap) (overlay.exclude.getD []))
    exclude := base.exclude
    extends_ := match overlay.extends_ with
      | some e => some e
      | none => base.extends_
    others := overlay.others.foldl upsertKV base.others }

/-- Python `h.get('priority', 50)`. -/
def priorityD (h : Hook) : Int :=
  h.priority.getD 50

/-- One insertion step of the stable descending sort: the new element
is placed before the first element whose priority does not exceed it,
so an element never jumps over an earlier equal-priority element. -/
def insertByPriority (x : Hook) : List Hook → List Hook
  | [] => [x]
  | b :: l =>
    if priorityD b ≤ priorityD x then x :: b :: l
    else b :: insertByPriority x l

/-- Model of CPython `list.sort(key=lambda h: h.get('priority', 50),
reverse=True)` (config_loader.py lines 233 and 256) and of
`sorted(applicable, key=lambda h: -h.get('priority', 50))`
(hook_filter.py line 19).  Both are stable sorts by descending
priority; a stable sort is extensionally unique, and this insertion
sort realises it (proved sorted and stable below). -/
def sortByPriorityDesc (hooks : List Hook) : List Hook :=
  hooks.foldr insertByPriority []

/-- Python falsiness of an optional list value (`if not tools: ...`):
an absent key and an empty list are both falsy. -/
def pyFalsyList (o : Option (List String)) : Bool :=
  match o with
  | none => true
  | some [] => true
  | some (_ :: _) => false

/-- Python falsiness of an optional string (`if not tool: ...`): an
absent value and the empty string are both falsy. -/
def pyFalsyStr (o : Option String) : Bool :=
  match o with
  | none => true
  | some s => s == ""

/-- `matches_file_patterns` (hook_filter.py lines 44-51).  The
standard-library `fnmatch.fnmatch` call is abstracted as the `fnm`
parameter; the repository's own logic (falsy patterns match
everything, the match is against the basename) is kept. -/
def matchesFilePatterns (fnm : String → String → Bool) (hook : Hook)
    (file_path : String) : Bool :=
  if pyFalsyList hook.file_patterns then true
  else (hook.file_patterns.getD []).any (fun p => fnm (basenameOf file_path) p)

/-- `matches_tool_filter` (hook_filter.py lines 54-61): falsy or
wildcard-bearing `tools` always match; otherwise a falsy supplied
tool never matches, and a real tool matches by membership. -/
def matchesToolFilter (hook : Hook) (tool : Option String) : Bool :=
  if pyFalsyList hook.tools || (hook.tools.getD []).contains "*" then true
  else if pyFalsyStr tool then false
  else (hook.tools.getD []).contains (tool.getD "")

/-- `is_in_directory` (hook_filter.py lines 78-84), on POSIX where
`os.sep = '/'`. -/
def isInDirectory (file_path directory : String) : Bool :=
  let starts_with_sep := strStartsWith file_path (directory ++ "/")
  let equals_dir := file_path == directory
  let starts_with_slash := strContainsChar file_path '/'
      && strStartsWith file_path (directory ++ "/")
  starts_with_sep || equals_dir || starts_with_slash

/-- `matches_directory_filter` (hook_filter.py lines 64-75).  The
standard-library `os.path.relpath` is abstracted as the `relf`
parameter; `none` models the `ValueError` branch, which returns
`False`. -/
def matchesDirectoryFilter (relf : String → String → Option String)
    (hook : Hook) (file_path project_root : String) : Bool :=
  if pyFalsyList hook.directories then true
  else
    match relf file_path project_root with
    | some rel_path => (hook.directories.getD []).any (fun d => isInDirectory rel_path d)
    | none => false

/-- `hook_applies` (hook_filter.py lines 22-41): conjunction of the
disabled check and the three filters. -/
def hookApplies (fnm : String → String → Bool)
    (relf : String → String → Option String) (hook : Hook)
    (file_path : String) (tool : Option String) (project_root : String) : Bool :=
  !(hook.disabled.getD false)
  && matchesFilePatterns fnm hook file_path
  && matchesToolFilter hook tool
  && matchesDirectoryFilter relf hook file_path project_root

/-- `filter_hooks_for_file` (hook_filter.py lines 9-19): keep the
applicable hooks in input order, then stable-sort by descending
priority. -/
def filterHooksForFile (fnm : String → String → Bool)
    (relf : String → String → Option String) (hooks : List Hook)
    (file_path : String) (tool : Option String) (project_root : String) :
    List Hook :=
  sortByPriorityDesc (hooks.filter
    (fun h => hookApplies fnm relf h file_path tool project_root))

/-- The inline directory check of
`HierarchicalConfigLoader.get_hooks_for_file` (config_loader.py line
227): `any(rel_path.startswith(d) for d in hook['directories'])` — a
raw string-prefix test on the project-relative path. -/
def loaderDirCheck (directories : List String) (rel_path : String) : Bool :=
  directories.any (fun d => strStartsWith rel_path d)

/-- The per-hook filter of `HierarchicalConfigLoader.get_hooks_for_tool`
(config_loader.py lines 244-253): skip disabled hooks; if the `tools`
key is present, keep the hook only when the tool name is literally a
member — there is no wildcard handling here. -/
def loaderToolKeeps (hook : Hook) (tool_name : String) : Bool :=
  !(hook.disabled.getD false)
  && (match hook.tools with
      | none => true
      | some ts => ts.contains tool_name)

/-- Python `config.get('hooks', {}).get(event_type, [])`. -/
def phaseHooksOf (cfg : ConfigDoc) (ph : Phase) : List Hook :=
  ((cfg.hooks.getD emptyHookMap).get ph).getD []

/-- Body of `HierarchicalConfigLoader.get_hooks_for_tool`
(config_loader.py lines 237-258) after the effective configuration
has been resolved: filter by the disabled and tool checks, then sort
by descending priority. -/
def getHooksForTool (cfg : ConfigDoc) (ph : Phase) (tool_name : String) :
    List Hook :=
  sortByPriorityDesc ((phaseHooksOf cfg ph).filter
    (fun h => loaderToolKeeps h tool_name))

/-- The initial accumulator of
`HierarchicalConfigLoader.get_config_for_path` (config_loader.py line
44): the dictionary `{'version': '1.0', 'hooks': {}}`. -/
def initialMerged : ConfigDoc :=
  { hooks := some emptyHookMap, others := [("version", "1.0")] }

/-- The chain fold of `get_config_for_path` (config_loader.py lines
47-50) over per-file load outcomes: a file that failed to load or
parse contributes `none` (the `except` branch of `_load_config_file`
returns `None` after printing a diagnostic), a falsy (empty) document
is skipped by the `if config:` test, everything else is merged. -/
def resolveChain (files : List (Option ConfigDoc)) : ConfigDoc :=
  files.foldl
    (fun merged oc =>
      match oc with
      | some c => if docTruthy c then loaderMergeConfigs merged c else merged
      | none => merged)
    initialMerged

/-- `HierarchicalConfigLoader._load_config_file` together with the
inlined `_load_extended_config` (config_loader.py lines 86-123),
threaded through the `_file_cache` association list.

The stack budget of the Python runtime is modelled by the fuel
argument: CPython raises `RecursionError` once the recursion limit is
reached, the blanket `except Exception` of the innermost active call
catches it, and that call returns `None` — exactly the `fuel = 0`
equation.  Path arithmetic (`os.path.normpath(os.path.join(
os.path.dirname(current_path), extends))`) is standard-library code
and is abstracted as the `resolveP` parameter; the `.json` suffix
rule, the `@`-reference rule, the `os.path.exists` guard and the
caching behaviour are the repository's own logic and are kept. -/
def loadConfigFile (resolveP : String → String → String)
    (exists_ : String → Bool) (parse : String → Option ConfigDoc) :
    Nat → String → List (String × ConfigDoc) →
    Option ConfigDoc × List (String × ConfigDoc)
  | 0, _, cache => (none, cache)
  | fuel + 1, path, cache =>
    match cache.lookup path with
    | some cfg => (some cfg, cache)
    | none =>
      match parse path with
      | none => (none, cache)
      | some config =>
        match config.extends_ with
        | none => (some config, (path, config) :: cache)
        | some ext =>
          if strStartsWith ext "@" then (some config, (path, config) :: cache)
          else
            let ep0 := resolveP path ext
            let ep := if strEndsWith ep0 ".json" then ep0
                      else ep0 ++ "/.claude-hooks.json"
            if exists_ ep then
              match loadConfigFile resolveP exists_ parse fuel ep cache with
              | (some base, cache1) =>
                let merged := loaderMergeConfigs base config
                (some merged, (path, merged) :: cache1)
              | (none, cache1) => (some config, (path, config) :: cache1)
            else (some config, (path, config) :: cache)

/-- Search loop of `HierarchicalConfigLoader._find_project_root`
(config_loader.py lines 20-27).  An absolute path is modelled as its
list of segments in leaf-first order, so `Path('/')` is `[]`,
`current.parent` is `List.tail`, and the loop guard
`current != current.parent` is "the segment list is non-empty" (the
filesystem root itself is never tested).  Returns the first ancestor
carrying a `.git` or `.claude` entry, in root-first order. -/
def rootSearchRev (hasMarker : List String → Bool) :
    List String → Option (List String)
  | [] => none
  | seg :: rest =>
    if hasMarker ((seg :: rest).reverse) then some ((seg :: rest).reverse)
    else rootSearchRev hasMarker rest

/-- `HierarchicalConfigLoader._find_project_root`: walk from the
working directory upward; when no ancestor carries a marker, fall
back to the working directory itself.  Paths are root-first segment
lists; `hasMarker p` models `(p / '.git').exists() or
(p / '.claude').exists()`. -/
def findProjectRoot (hasMarker : List String → Bool)
    (cwd : List String) : List String :=
  (rootSearchRev hasMarker cwd.reverse).getD cwd

/-- Ids of a hook list, in order. -/
def idsOf (l : List Hook) : List String :=
  l.map Hook.id

/-- Whether some hook in the list carries the given id. -/
def anyId (l : List Hook) (hid : String) : Bool :=
  l.any (fun h => h.id == hid)

/-- Whether the merged document contains a hook with the given id in
any of the three phases. -/
def docHasHookId (d : ConfigDoc) (hid : String) : Bool :=
  anyId (phaseHooksOf d Phase.preTool) hid
  || anyId (phaseHooksOf d Phase.postTool) hid
  || anyId (phaseHooksOf d Phase.stopPhase) hid

/-- The effect of one override hook on one base hook under the
loader's in-place merge: the first overlay hook with a matching id is
field-merged into the base hook, otherwise the base hook is kept. -/
def ovApply (ov : List Hook) (b : Hook) : Hook :=
  match ov.find? (fun o => o.id == b.id) with
  | some o => mergeHookConfigs b o
  | none => b

/-- The overlay hooks with no id match in the base, in overlay order:
exactly the hooks the loader's merge appends. -/
def newHooksOf (base ov : List Hook) : List Hook :=
  ov.filter (fun o => !(anyId base o.id))

/-- A document whose `hooks` key, when present, has at least one of
the three phase keys; `_merge_configs` applied to an empty base
reconstructs the `hooks` key exactly for such documents. -/
def goodHooksShape (X : ConfigDoc) : Bool :=
  match X.hooks with
  | none => true
  | some hm => hm.pre.isSome || hm.post.isSome || hm.stp.isSome

/-- Hooks-key normalisation performed by `config_merger.merge_hooks`:
a phase key is present in the output exactly when its merged list is
non-empty. -/
def normalizePhase (o : Option (List Hook)) : Option (List Hook) :=
  match o.getD [] with
  | [] => none
  | l => some l

/-- What `config_merger.merge_configs X {}` actually returns: `X` with
its `hooks` key materialised and each empty or absent phase key
dropped. -/
def normalizeHooksDoc (X : ConfigDoc) : ConfigDoc :=
  let hm := X.hooks.getD emptyHookMap
  { X with hooks := some ⟨normalizePhase hm.pre, normalizePhase hm.post,
      normalizePhase hm.stp⟩ }

/-- Hook `z` with priority 5 (spec §8 sort-stability scenario). -/
def zHook : Hook := { id := "z", priority := some 5 }

/-- Hook `a` with priority 5 (spec §8 sort-stability scenario). -/
def aHook : Hook := { id := "a", priority := some 5 }

/-- Hook `a` with priority 1 (spec §8 override-in-place scenario). -/
def a1Hook : Hook := { id := "a", priority := some 1 }

/-- Hook `b` with priority 2 (spec §8 override-in-place scenario). -/
def b2Hook : Hook := { id := "b", priority := some 2 }

/-- Overlay hook `a` with priority 9 (spec §8 override-in-place
scenario). -/
def a9Hook : Hook := { id := "a", priority := some 9 }

/-- Base document declaring hook `foo` in the `pre-tool` phase. -/
def fooBaseDoc : ConfigDoc :=
  { hooks := some { pre := some [{ id := "foo", priority := some 1 }] } }

/-- Overlay that excludes id `foo` while itself declaring a `pre-tool`
hook with id `foo`. -/
def fooOverlayDoc : ConfigDoc :=
  { hooks := some { pre := some [{ id := "foo", priority := some 2 }] }
    exclude := some ["foo"] }

/-- Hook restricted to the tool wildcard. -/
def wHook : Hook := { id := "w", tools := some ["*"] }

/-- Effective configuration declaring only the wildcard hook. -/
def wCfg : ConfigDoc := { hooks := some { pre := some [wHook] } }

/-- Sample document used to instantiate the amended identity
theorem. -/
def sampleDoc : ConfigDoc :=
  { hooks := some { pre := some [a1Hook, b2Hook] }
    others := [("version", "2.0")] }

/-- Parse outcomes of the two-file mutual-`extends` project:
`/p/a.json` extends `b.json` and carries marker key `ka`;
`/p/b.json` extends `a.json` and carries marker key `kb`. -/
def cycParse : String → Option ConfigDoc := fun p =>
  if p = "/p/a.json" then
    some { extends_ := some "b.json", others := [("ka", "1")] }
  else if p = "/p/b.json" then
    some { extends_ := some "a.json", others := [("kb", "1")] }
  else none

/-- `os.path.exists` for the two-file project. -/
def cycExists : String → Bool := fun p => (cycParse p).isSome

/-- `normpath(join(dirname(current), ext))` for the flat `/p`
layout of the two-file project. -/
def cycResolveP : String → String → String := fun _ ext => "/p/" ++ ext

/-- Result of loading `/p/a.json` with the given stack budget. -/
def cycLoadA (fuel : Nat) : Option ConfigDoc :=
  (loadConfigFile cycResolveP cycExists cycParse fuel "/p/a.json" []).1

/-- Overlay that excludes id `foo` and declares only an unrelated
hook; used to instantiate the amended exclusion theorem. -/
def excludeOverlayDoc : ConfigDoc :=
  { hooks := some { pre := some [b2Hook] }
    exclude := some ["foo"] }

theorem mergeHookConfigs_id (b o : Hook) : (mergeHookConfigs b o).id = b.id := rfl

theorem insertHook_nil (h : Hook) : insertHook [] h = [h] := rfl

theorem insertHook_cons (b : Hook) (acc : List Hook) (h : Hook) :
    insertHook (b :: acc) h =
      if b.id = h.id then mergeHookConfigs b h :: acc
      else b :: insertHook acc h := by
  by_cases hb : b.id = h.id
  · simp [insertHook, findHookIndex, hb]
  · simp only [insertHook, findHookIndex, hb, if_neg, if_false]
    cases hfi : findHookIndex acc h.id with
    | none => simp
    | some i =>
      simp only [Option.map_some', List.getElem?_cons_succ, List.set_cons_succ]
      cases acc[i]? <;> simp

theorem anyId_eq_false_iff (l : List Hook) (hid : String) :
    anyId l hid = false ↔ ∀ h ∈ l, h.id ≠ hid := by
  simp [anyId]

theorem findHookIndex_eq_none_iff (l : List Hook) (hid : String) :
    findHookIndex l hid = none ↔ ∀ h ∈ l, h.id ≠ hid := by
  induction l with
  | nil => simp [findHookIndex]
  | cons b t ih =>
    by_cases hb : b.id = hid <;> simp [findHookIndex, hb, ih]

theorem insertHook_append_of_no_id (acc : List Hook) (h : Hook)
    (hna : anyId acc h.id = false) : insertHook acc h = acc ++ [h] := by
  have hfi : findHookIndex acc h.id = none :=
    (findHookIndex_eq_none_iff acc h.id).2 ((anyId_eq_false_iff acc h.id).1 hna)
  simp [insertHook, hfi]

theorem idsOf_cons (b : Hook) (t : List Hook) :
    idsOf (b :: t) = b.id :: idsOf t := rfl

theorem anyId_cons (b : Hook) (t : List Hook) (hid : String) :
    anyId (b :: t) hid = ((b.id == hid) || anyId t hid) := by
  simp [anyId]

theorem idsOf_insertHook (acc : List Hook) (h : Hook) :
    idsOf (insertHook acc h) =
      if anyId acc h.id then idsOf acc else idsOf acc ++ [h.id] := by
  induction acc with
  | nil => simp [insertHook_nil, idsOf, anyId]
  | cons b t ih =>
    rw [insertHook_cons]
    by_cases hb : b.id = h.id
    · simp [hb, idsOf_cons, anyId_cons, mergeHookConfigs_id]
    · have hbne : (b.id == h.id) = false := by simp [hb]
      by_cases hat : anyId t h.id
      · simp [hb, idsOf_cons, anyId_cons, hbne, hat, ih]
      · simp only [Bool.not_eq_true] at hat
        simp [hb, idsOf_cons, anyId_cons, hbne, hat, ih]

theorem anyId_eq_idsAny (l : List Hook) (hid : String) :
    anyId l hid = (idsOf l).any (fun s => s == hid) := by
  induction l with
  | nil => rfl
  | cons b t ih => simp [anyId, idsOf, List.any_cons] at ih ⊢; rw [ih]

theorem anyId_insertHook_false (acc : List Hook) (h : Hook) (hid : String)
    (hna : anyId acc hid = false) (hne : h.id ≠ hid) :
    anyId (insertHook acc h) hid = false := by
  have hacc : (idsOf acc).any (fun s => s == hid) = false := by
    rw [← anyId_eq_idsAny]; exact hna
  rw [anyId_eq_idsAny, idsOf_insertHook]
  split
  · exact hacc
  · simp [List.any_append, hacc, hne]

theorem anyId_mergePhase_false (ovList : List Hook) (acc : List Hook) (hid : String)
    (hna : anyId acc hid = false) (hov : ∀ h ∈ ovList, h.id ≠ hid) :
    anyId (mergePhase acc ovList) hid = false := by
  induction ovList generalizing acc with
  | nil => exact hna
  | cons o rest ih =>
    have h1 : anyId (insertHook acc o) hid = false :=
      anyId_insertHook_false acc o hid hna (hov o (by simp))
    exact ih (insertHook acc o) h1 (fun h hm => hov h (by simp [hm]))

/-- C1.  The claim asserts that loading a mutual-`extends` pair
terminates within bounded steps with a partial merged document; the
spec prescribes a visited-set guard that detects the cycle.  The code
has no such guard: the load result is a function of the runtime stack
budget (fuel), because each level of the cycle is re-read and
re-merged until the recursion limit intervenes.  At budget 1 the load
of `/p/a.json` returns the raw document, at budget 2 it returns a
different document also merging `/p/b.json` — so the number of
nested loads is bounded only by the interpreter's recursion limit,
not by the program. -/
theorem loader_extends_cycle_unbounded :
    cycLoadA 1 = some { extends_ := some "b.json", others := [("ka", "1")] }
    ∧ cycLoadA 2
        = some { extends_ := some "a.json"
                 others := [("kb", "1"), ("ka", "1")] }
    ∧ cycLoadA 2 ≠ cycLoadA 1
    ∧ (cycLoadA 2).isSome = true := by
  refine ⟨by decide, by decide, by decide, by decide⟩

/-- C6.  The loader's inline directory test
(`rel_path.startswith(d)`, config_loader.py line 227) is a raw string
prefix: with `directories = ["src"]` it accepts the relative path
`srcextra/x.py`, which the spec — and the repository's own
`hook_filter.is_in_directory`, which matches on whole path
segments — both reject.  The segment-based matcher does accept
`src/x.py` and `src/sub/x.py`. -/
theorem directory_prefix_divergence :
    loaderDirCheck ["src"] "srcextra/x.py" = true
    ∧ isInDirectory "srcextra/x.py" "src" = false
    ∧ isInDirectory "src/x.py" "src" = true
    ∧ isInDirectory "src/sub/x.py" "src" = true
    ∧ isInDirectory "src" "src" = true := by
  refine ⟨by decide, by decide, by decide, by decide, by decide⟩

/-- C8.  A document in the chain that failed to load or parse
contributes `none`, and the resolved effective configuration is
exactly the one obtained from the chain without it: the malformed
document contributes nothing and every other document's contribution
is preserved.  (The diagnostic itself is printed to standard error, a
side effect outside this value model.) -/
theorem broken_document_skipped (pre post : List (Option ConfigDoc)) :
    resolveChain (pre ++ none :: post) = resolveChain (pre ++ post) := by
  simp [resolveChain, List.foldl_append]

theorem rootSearchRev_eq_none (hasMarker : List String → Bool) :
    ∀ l : List String, (∀ t, t <:+ l → hasMarker t.reverse = false) →
      rootSearchRev hasMarker l = none := by
  intro l
  induction l with
  | nil => intro _; rfl
  | cons s rest ih =>
    intro hm
    have h1 : hasMarker ((s :: rest).reverse) = false := by
      have := hm (s :: rest) (List.suffix_refl _)
      simpa using this
    simp only [rootSearchRev, h1, if_false, Bool.false_eq_true]
    exact ih (fun t ht => hm t (ht.trans (List.suffix_cons s rest)))

/-- C10.  `_find_project_root` walks from the working directory to the
filesystem root (the walk is structurally terminating); when no
ancestor of the working directory — the directory itself
included — carries a `.git` or `.claude` marker, it falls back to
returning the working directory itself. -/
theorem project_root_fallback (hasMarker : List String → Bool)
    (cwd : List String)
    (hnone : ∀ p : List String, p <+: cwd → hasMarker p = false) :
    findProjectRoot hasMarker cwd = cwd := by
  have hsearch : rootSearchRev hasMarker cwd.reverse = none := by
    apply rootSearchRev_eq_none
    intro t ht
    apply hnone
    have : t.reverse.reverse <:+ cwd.reverse := by simpa using ht
    exact (List.reverse_suffix).1 this
  simp [findProjectRoot, hsearch]

theorem project_root_fallback_witness :
    findProjectRoot (fun _ => false) ["home", "u"] = ["home", "u"] :=
  project_root_fallback (fun _ => false) ["home", "u"] (fun _ _ => rfl)

theorem mem_insertByPriority (x : Hook) (l : List Hook) (y : Hook) :
    y ∈ insertByPriority x l ↔ y = x ∨ y ∈ l := by
  induction l with
  | nil => simp [insertByPriority]
  | cons b t ih =>
    by_cases hb : priorityD b ≤ priorityD x
    · simp [insertByPriority, hb]
    · simp [insertByPriority, hb, ih]
      tauto

theorem pairwise_insertByPriority (x : Hook) (l : List Hook)
    (hl : List.Pairwise (fun g h => priorityD h ≤ priorityD g) l) :
    List.Pairwise (fun g h => priorityD h ≤ priorityD g) (insertByPriority x l) := by
  induction l with
  | nil => simp [insertByPriority]
  | cons b t ih =>
    rcases List.pairwise_cons.1 hl with ⟨hbt, ht⟩
    by_cases hb : priorityD b ≤ priorityD x
    · simp only [insertByPriority, if_pos hb]
      refine List.pairwise_cons.2 ⟨?_, hl⟩
      intro y hy
      rcases List.mem_cons.1 hy with h1 | h2
      · subst h1; exact hb
      · exact le_trans (hbt y h2) hb
    · simp only [insertByPriority, if_neg hb]
      refine List.pairwise_cons.2 ⟨?_, ih ht⟩
      intro y hy
      rcases (mem_insertByPriority x t y).1 hy with h1 | h2
      · subst h1; exact (lt_of_not_le hb).le
      · exact hbt y h2

theorem sortByPriorityDesc_pairwise (l : List Hook) :
    List.Pairwise (fun g h => priorityD h ≤ priorityD g) (sortByPriorityDesc l) := by
  induction l with
  | nil => simp [sortByPriorityDesc]
  | cons b t ih =>
    simpa [sortByPriorityDesc] using pairwise_insertByPriority b _ ih

theorem insertByPriority_perm (x : Hook) (l : List Hook) :
    List.Perm (insertByPriority x l) (x :: l) := by
  induction l with
  | nil => exact List.Perm.refl _
  | cons b t ih =>
    by_cases hb : priorityD b ≤ priorityD x
    · simp [insertByPriority, hb]
    · simp only [insertByPriority, if_neg hb]
      exact (ih.cons b).trans (List.Perm.swap x b t)

theorem sortByPriorityDesc_perm (l : List Hook) :
    List.Perm (sortByPriorityDesc l) l := by
  induction l with
  | nil => exact List.Perm.refl _
  | cons b t ih =>
    simp only [sortByPriorityDesc, List.foldr_cons]
    exact (insertByPriority_perm b _).trans (ih.cons b)

theorem filter_insertByPriority (x : Hook) (l : List Hook) (c : Int) :
    (insertByPriority x l).filter (fun h => priorityD h == c) =
      if priorityD x == c then x :: l.filter (fun h => priorityD h == c)
      else l.filter (fun h => priorityD h == c) := by
  induction l with
  | nil =>
    simp only [insertByPriority, List.filter_nil]
    by_cases hx : (priorityD x == c) <;> simp [List.filter_cons, hx]
  | cons b t ih =>
    by_cases hb : priorityD b ≤ priorityD x
    · simp only [insertByPriority, if_pos hb]
      by_cases hx : (priorityD x == c) <;> simp [List.filter_cons, hx]
    · have hlt : priorityD x < priorityD b := lt_of_not_le hb
      simp only [insertByPriority, if_neg hb, List.filter_cons]
      by_cases hbc : (priorityD b == c)
      · have hxc : (priorityD x == c) = false := by
          have hbceq : priorityD b = c := by simpa using hbc
          have : priorityD x ≠ c := by omega
          simpa using this
        simp [hbc, ih, hxc]
      · simp only [hbc, Bool.false_eq_true, if_false, ih]

theorem sortByPriorityDesc_filter (l : List Hook) (c : Int) :
    (sortByPriorityDesc l).filter (fun h => priorityD h == c) =
      l.filter (fun h => priorityD h == c) := by
  induction l with
  | nil => rfl
  | cons b t ih =>
    simp only [sortByPriorityDesc, List.foldr_cons] at ih ⊢
    rw [filter_insertByPriority, ih, List.filter_cons]

/-- C2 (amended).  The matcher's output is sorted by descending
`priority` and is a permutation of the surviving (applicable) hooks;
among hooks of equal priority the input order is preserved (CPython's
sort is stable), which is what the code guarantees in place of the
claimed ascending-id tie-break. -/
theorem matcher_sorted_desc_stable (fnm : String → String → Bool)
    (relf : String → String → Option String) (hooks : List Hook)
    (fp : String) (tool : Option String) (root : String) :
    List.Pairwise (fun g h => priorityD h ≤ priorityD g)
      (filterHooksForFile fnm relf hooks fp tool root)
    ∧ List.Perm (filterHooksForFile fnm relf hooks fp tool root)
        (hooks.filter (fun h => hookApplies fnm relf h fp tool root))
    ∧ ∀ p : Int,
        (filterHooksForFile fnm relf hooks fp tool root).filter
            (fun h => priorityD h == p)
          = (hooks.filter (fun h => hookApplies fnm relf h fp tool root)).filter
              (fun h => priorityD h == p) := by
  refine ⟨sortByPriorityDesc_pairwise _, sortByPriorityDesc_perm _,
    fun p => sortByPriorityDesc_filter _ p⟩

/-- C2 (counterexample).  Two surviving hooks of equal priority are
returned in input order, not in ascending id order: with input
`[z, a]` (priorities both 5) the matched output is `[z, a]`, whereas
the claim requires `a` before `z`. -/
theorem matcher_equal_priority_insertion_order :
    filterHooksForFile (fun _ _ => false) (fun _ _ => none)
        [zHook, aHook] "x.py" none "/proj" = [zHook, aHook]
    ∧ priorityD zHook = priorityD aHook
    ∧ (filterHooksForFile (fun _ _ => false) (fun _ _ => none)
        [zHook, aHook] "x.py" none "/proj").map Hook.id ≠ ["a", "z"] := by
  refine ⟨by decide, by decide, by decide⟩

/-- C7 (counterexample).  A hook whose `tools` set is the wildcard
`["*"]` is dropped by `get_hooks_for_tool` for the tool `Edit`,
because the loader tests plain membership (`tool_name not in
hook['tools']`) with no wildcard handling — while the repository's
`matches_tool_filter` accepts the same hook, as the claim states. -/
theorem loader_tool_wildcard_ignored :
    (wHook.tools.getD []).contains "*" = true
    ∧ getHooksForTool wCfg Phase.preTool "Edit" = []
    ∧ matchesToolFilter wHook (some "Edit") = true := by
  refine ⟨by decide, by decide, by decide⟩

/-- C7 (amended).  `matches_tool_filter` satisfies the claim for
non-empty `tools` sets: a wildcard always matches, a non-wildcard set
matches exactly a supplied non-empty member, and no supplied tool
means no match.  Deviations from the claim: an empty `tools` list is
treated as unrestricted (Python falsiness), and
`get_hooks_for_tool`'s own filter is plain membership, so a wildcard
hook matches only the literal tool name `*`. -/
theorem tool_filter_amended :
    (∀ (h : Hook) (ts : List String) (tool : Option String),
        h.tools = some ts → ts.contains "*" = true →
        matchesToolFilter h tool = true)
    ∧ (∀ (h : Hook) (ts : List String) (t : String),
        h.tools = some ts → ts ≠ [] → ts.contains "*" = false →
        matchesToolFilter h (some t) = (!(t == "") && ts.contains t))
    ∧ (∀ (h : Hook) (ts : List String),
        h.tools = some ts → ts ≠ [] → ts.contains "*" = false →
        matchesToolFilter h none = false)
    ∧ (∀ (h : Hook) (tn : String),
        h.tools = some ["*"] → tn ≠ "*" →
        loaderToolKeeps h tn = false) := by
  refine ⟨?_, ?_, ?_, ?_⟩
  · intro h ts tool hts hw
    have hw1 : "*" ∈ ts := by simpa using hw
    simp [matchesToolFilter, hts, hw1]
  · intro h ts t hts hne hw
    cases ts with
    | nil => exact absurd rfl hne
    | cons a l =>
      simp only [matchesToolFilter, hts, pyFalsyList, Option.getD_some, hw,
        Bool.false_or, Bool.or_self, if_false, pyFalsyStr]
      by_cases ht : (t == "") <;> simp [ht]
  · intro h ts hts hne hw
    cases ts with
    | nil => exact absurd rfl hne
    | cons a l =>
      have hw1 : ("*" : String) ∉ a :: l := by simpa using hw
      simp [matchesToolFilter, hts, pyFalsyList, pyFalsyStr, hw1]
  · intro h tn hts hne
    simp [loaderToolKeeps, hts, List.contains_cons, hne]

theorem tool_filter_amended_witness :
    matchesToolFilter wHook (some "Edit") = true
    ∧ matchesToolFilter { id := "q", tools := some ["Bash"] } (some "Edit") = false
    ∧ matchesToolFilter { id := "q", tools := some ["Bash"] } none = false
    ∧ loaderToolKeeps wHook "Edit" = false := by
  refine ⟨tool_filter_amended.1 wHook ["*"] (some "Edit") rfl (by decide),
    Eq.trans (tool_filter_amended.2.1 { id := "q", tools := some ["Bash"] }
      ["Bash"] "Edit" rfl (by decide) (by decide)) (by decide),
    tool_filter_amended.2.2.1 { id := "q", tools := some ["Bash"] }
      ["Bash"] rfl (by decide) (by decide),
    tool_filter_amended.2.2.2 wHook "Edit" rfl (by decide)⟩

theorem map_updOne_of_no_id (t : List Hook) (o : Hook)
    (hno : ∀ x ∈ t, x.id ≠ o.id) :
    t.map (fun b => if b.id = o.id then mergeHookConfigs b o else b) = t := by
  have hpt : ∀ x ∈ t, (if x.id = o.id then mergeHookConfigs x o else x) = x :=
    fun x hx => if_neg (hno x hx)
  rw [List.map_congr_left hpt]
  exact List.map_id' t

theorem idsOf_nodup_cons (b : Hook) (t : List Hook)
    (hnd : (idsOf (b :: t)).Nodup) :
    b.id ∉ idsOf t ∧ (idsOf t).Nodup := by
  rw [idsOf_cons] at hnd
  exact ⟨(List.nodup_cons.1 hnd).1, (List.nodup_cons.1 hnd).2⟩

theorem mem_idsOf (l : List Hook) (s : String) :
    s ∈ idsOf l ↔ ∃ h ∈ l, h.id = s := by
  simp [idsOf, List.mem_map, eq_comm]

theorem anyId_eq_false_iff_not_mem_ids (l : List Hook) (hid : String) :
    anyId l hid = false ↔ hid ∉ idsOf l := by
  rw [anyId_eq_false_iff, mem_idsOf]
  constructor
  · rintro h ⟨x, hx, hxe⟩; exact h x hx hxe
  · intro h x hx hxe; exact h ⟨x, hx, hxe⟩

theorem insertHook_of_mem (base : List Hook) (o : Hook)
    (hmem : anyId base o.id = true) (hnd : (idsOf base).Nodup) :
    insertHook base o
      = base.map (fun b => if b.id = o.id then mergeHookConfigs b o else b) := by
  induction base with
  | nil => simp [anyId] at hmem
  | cons b t ih =>
    rw [insertHook_cons]
    rcases idsOf_nodup_cons b t hnd with ⟨hbnotin, hndt⟩
    by_cases hb : b.id = o.id
    · rw [if_pos hb]
      have hno : ∀ x ∈ t, x.id ≠ o.id := by
        intro x hx hxo
        exact hbnotin (by
          rw [hb, ← hxo]
          exact List.mem_map_of_mem Hook.id hx)
      simp [hb, map_updOne_of_no_id t o hno]
    · rw [if_neg hb]
      have hmem1 : anyId t o.id = true := by
        have : (b.id == o.id) = false := by simpa using hb
        simpa [anyId_cons, this] using hmem
      simp [ih hmem1 hndt, hb]

theorem find?_id_eq_none (rest : List Hook) (i : String)
    (hno : ∀ x ∈ rest, x.id ≠ i) :
    rest.find? (fun o => o.id == i) = none :=
  List.find?_eq_none.2 (fun x hx => by simp [hno x hx])

theorem anyId_append (l1 l2 : List Hook) (hid : String) :
    anyId (l1 ++ l2) hid = (anyId l1 hid || anyId l2 hid) := by
  simp [anyId, List.any_append]

theorem mergePhase_shape : ∀ (ov base : List Hook),
    (idsOf base).Nodup → (idsOf ov).Nodup →
    mergePhase base ov = base.map (ovApply ov) ++ newHooksOf base ov := by
  intro ov
  induction ov with
  | nil =>
    intro base _ _
    have hpt : ∀ b ∈ base, ovApply [] b = b := fun b _ => rfl
    simp only [mergePhase, List.foldl_nil, newHooksOf, List.filter_nil,
      List.append_nil]
    rw [List.map_congr_left hpt]
    simp
  | cons o rest ih =>
    intro base hndb hndov
    rcases idsOf_nodup_cons o rest hndov with ⟨honotin, hndrest⟩
    have hno_rest : ∀ x ∈ rest, x.id ≠ o.id := by
      intro x hx hxo
      exact honotin (by rw [← hxo]; exact List.mem_map_of_mem Hook.id hx)
    have hstep : mergePhase base (o :: rest)
        = mergePhase (insertHook base o) rest := rfl
    by_cases hmem : anyId base o.id
    · -- the override hook matches an existing id: in-place merge
      have hins := insertHook_of_mem base o hmem hndb
      have hids : idsOf (insertHook base o) = idsOf base := by
        rw [idsOf_insertHook, if_pos hmem]
      have hnd2 : (idsOf (insertHook base o)).Nodup := by rw [hids]; exact hndb
      rw [hstep, ih _ hnd2 hndrest]
      have hpart1 : (insertHook base o).map (ovApply rest)
          = base.map (ovApply (o :: rest)) := by
        rw [hins, List.map_map]
        apply List.map_congr_left
        intro b _
        show ovApply rest (if b.id = o.id then mergeHookConfigs b o else b)
            = ovApply (o :: rest) b
        by_cases hbo : b.id = o.id
        · have hbeq : (o.id == b.id) = true := by simp [hbo]
          have hfr : rest.find? (fun x => x.id == (mergeHookConfigs b o).id)
              = none := by
            rw [mergeHookConfigs_id, hbo]
            exact find?_id_eq_none rest o.id hno_rest
          simp [hbo, ovApply, List.find?_cons, hbeq, hfr]
        · have hbeq : (o.id == b.id) = false := by
            simp; exact fun he => hbo he.symm
          simp [hbo, ovApply, List.find?_cons, hbeq]
      have hpart2 : newHooksOf (insertHook base o) rest
          = newHooksOf base (o :: rest) := by
        have hfc : newHooksOf base (o :: rest) = newHooksOf base rest := by
          simp only [newHooksOf, List.filter_cons, hmem]
          simp
        rw [hfc]
        apply List.filter_congr
        intro x _
        have : anyId (insertHook base o) x.id = anyId base x.id := by
          rw [anyId_eq_idsAny, anyId_eq_idsAny, hids]
        rw [this]
      rw [hpart1, hpart2]
    · -- fresh id: the override hook is appended
      have hmemf : anyId base o.id = false := by simpa using hmem
      have hins := insertHook_append_of_no_id base o hmemf
      have hno_base : ∀ b ∈ base, b.id ≠ o.id :=
        (anyId_eq_false_iff base o.id).1 hmemf
      have hids : idsOf (base ++ [o]) = idsOf base ++ [o.id] := by
        simp [idsOf]
      have hnd2 : (idsOf (base ++ [o])).Nodup := by
        rw [hids]
        refine List.Nodup.append hndb (List.nodup_singleton o.id) ?_
        intro s hs hso
        rcases (mem_idsOf base s).1 hs with ⟨b, hb, hbe⟩
        have : s = o.id := by simpa using hso
        exact hno_base b hb (hbe.trans this)
      rw [hstep, hins, ih _ hnd2 hndrest]
      have hpart1 : (base ++ [o]).map (ovApply rest)
          = base.map (ovApply (o :: rest)) ++ [o] := by
        rw [List.map_append]
        have h1 : base.map (ovApply rest) = base.map (ovApply (o :: rest)) := by
          apply List.map_congr_left
          intro b hb
          have hbeq : (o.id == b.id) = false := by
            simp; exact fun he => hno_base b hb he.symm
          simp [ovApply, List.find?_cons, hbeq]
        have h2 : [o].map (ovApply rest) = [o] := by
          have : rest.find? (fun x => x.id == o.id) = none :=
            find?_id_eq_none rest o.id hno_rest
          simp [ovApply, this]
        rw [h1, h2]
      have hpart2 : newHooksOf (base ++ [o]) rest = newHooksOf base rest := by
        apply List.filter_congr
        intro x hx
        have hxno : (o.id == x.id) = false := by
          simp; exact fun he => hno_rest x hx he.symm
        rw [anyId_append]
        have : anyId [o] x.id = false := by simp [anyId, hxno]
        rw [this, Bool.or_false]
      have hpart3 : newHooksOf base (o :: rest) = o :: newHooksOf base rest := by
        simp only [newHooksOf, List.filter_cons, hmemf]
        simp
      rw [hpart1, hpart2, hpart3, List.append_assoc, List.singleton_append]

/-- C3 (counterexample).  Under `config_merger.merge_hook_list`,
merging base `[a(priority 1), b(priority 2)]` with overlay
`[a(priority 9)]` produces the order `[b, a]`: the overridden hook is
dropped from its base position and the overlay hook is appended at
the end, contradicting the claimed order `[a, b]`. -/
theorem merger_override_moves_to_end :
    (mergerMergeHookList [a1Hook, b2Hook] [a9Hook] []).map Hook.id = ["b", "a"]
    ∧ (mergerMergeHookList [a1Hook, b2Hook] [a9Hook] []).map Hook.id
        ≠ ["a", "b"] := by
  refine ⟨by decide, by decide⟩

/-- C3 (amended).  The hierarchical loader's per-phase merge does keep
base hooks in their original positions — an overlay hook with a
matching id is field-merged into the base hook at its original index,
and overlay hooks with fresh ids are appended in overlay order (for
phase lists with per-list distinct ids).  The standalone
`config_merger.merge_hook_list`, however, removes the matched base
hook and appends every overlay hook after the surviving base hooks,
so an overriding hook moves to the end of the list. -/
theorem merge_override_in_place_amended :
    (∀ (base ov : List Hook), (idsOf base).Nodup → (idsOf ov).Nodup →
        mergePhase base ov = base.map (ovApply ov) ++ newHooksOf base ov)
    ∧ (∀ (base ov : List Hook) (excl : List String),
        mergerMergeHookList base ov excl
          = base.filter (fun h =>
              !(excl.contains h.id)
              && !(ov.any (fun o => o.id ≠ "" && o.id = h.id))) ++ ov)
    ∧ (mergePhase [a1Hook, b2Hook] [a9Hook]).map Hook.id = ["a", "b"] := by
  refine ⟨fun base ov => mergePhase_shape ov base, fun base ov excl => rfl,
    by decide⟩

theorem merge_override_in_place_amended_witness :
    mergePhase [a1Hook, b2Hook] [a9Hook]
      = [a1Hook, b2Hook].map (ovApply [a9Hook])
        ++ newHooksOf [a1Hook, b2Hook] [a9Hook] :=
  merge_override_in_place_amended.1 [a1Hook, b2Hook] [a9Hook]
    (by decide) (by decide)

theorem anyId_filter_self (l : List Hook) (hid : String) :
    anyId (l.filter (fun h => h.id != hid)) hid = false := by
  rw [anyId_eq_false_iff]
  intro h hm
  have := (List.mem_filter.1 hm).2
  simpa using this

theorem anyId_filter_of_false (l : List Hook) (p : Hook → Bool) (hid : String)
    (hna : anyId l hid = false) : anyId (l.filter p) hid = false := by
  rw [anyId_eq_false_iff] at hna ⊢
  exact fun h hm => hna h (List.mem_filter.1 hm).1

theorem phaseHooksOf_removeHook (c : ConfigDoc) (hid : String) (ph : Phase) :
    phaseHooksOf (removeHook c hid) ph
      = (phaseHooksOf c ph).filter (fun h => h.id != hid) := by
  cases c with
  | mk hks ex ext oth =>
    cases hks with
    | none => cases ph <;> rfl
    | some hm =>
      cases hm with
      | mk p1 p2 p3 =>
        cases ph <;> cases p1 <;> cases p2 <;> cases p3 <;> rfl

theorem docHasHookId_eq_or (d : ConfigDoc) (hid : String) :
    docHasHookId d hid = false ↔
      ∀ ph : Phase, anyId (phaseHooksOf d ph) hid = false := by
  constructor
  · intro h ph
    simp only [docHasHookId, Bool.or_eq_false_iff] at h
    cases ph
    · exact h.1.1
    · exact h.1.2
    · exact h.2
  · intro h
    simp only [docHasHookId, Bool.or_eq_false_iff]
    exact ⟨⟨h Phase.preTool, h Phase.postTool⟩, h Phase.stopPhase⟩

theorem docHasHookId_removeHook_self (c : ConfigDoc) (hid : String) :
    docHasHookId (removeHook c hid) hid = false := by
  rw [docHasHookId_eq_or]
  intro ph
  rw [phaseHooksOf_removeHook]
  exact anyId_filter_self _ hid

theorem docHasHookId_removeHook_mono (c : ConfigDoc) (x hid : String)
    (h : docHasHookId c hid = false) :
    docHasHookId (removeHook c x) hid = false := by
  rw [docHasHookId_eq_or] at h ⊢
  intro ph
  rw [phaseHooksOf_removeHook]
  exact anyId_filter_of_false _ _ hid (h ph)

theorem docHasHookId_foldl_preserve (ex : List String) :
    ∀ (c : ConfigDoc) (hid : String), docHasHookId c hid = false →
      docHasHookId (ex.foldl removeHook c) hid = false := by
  induction ex with
  | nil => intro c hid h; exact h
  | cons e rest ih =>
    intro c hid h
    exact ih (removeHook c e) hid (docHasHookId_removeHook_mono c e hid h)

theorem docHasHookId_foldl_removeHook (ex : List String) (c : ConfigDoc)
    (hid : String) (hmem : hid ∈ ex) :
    docHasHookId (ex.foldl removeHook c) hid = false := by
  induction ex generalizing c with
  | nil => simp at hmem
  | cons e rest ih =>
    rcases List.mem_cons.1 hmem with he | hr
    · subst he
      exact docHasHookId_foldl_preserve rest (removeHook c hid) hid
        (docHasHookId_removeHook_self c hid)
    · exact ih (removeHook c e) hr

theorem phaseHooksOf_mergePhaseInto_same (merged ov : ConfigDoc) (ph : Phase) :
    phaseHooksOf (mergePhaseInto merged ov ph) ph
      = match (ov.hooks.getD emptyHookMap).get ph with
        | none => phaseHooksOf merged ph
        | some ovList => mergePhase (phaseHooksOf merged ph) ovList := by
  cases hcase : (ov.hooks.getD emptyHookMap).get ph with
  | none => simp [mergePhaseInto, hcase]
  | some ovList =>
    simp only [mergePhaseInto, hcase]
    cases ph <;> simp [phaseHooksOf, HookMap.get, HookMap.set]

theorem phaseHooksOf_mergePhaseInto_other (merged ov : ConfigDoc)
    (ph ph2 : Phase) (hne : ph ≠ ph2) :
    phaseHooksOf (mergePhaseInto merged ov ph) ph2 = phaseHooksOf merged ph2 := by
  cases hcase : (ov.hooks.getD emptyHookMap).get ph with
  | none => simp [mergePhaseInto, hcase]
  | some ovList =>
    simp only [mergePhaseInto, hcase]
    cases ph <;> cases ph2 <;>
      first
      | exact absurd rfl hne
      | simp [phaseHooksOf, HookMap.get, HookMap.set]

theorem docHasHookId_mergePhaseInto (merged ov : ConfigDoc) (ph : Phase)
    (hid : String) (hm : docHasHookId merged hid = false)
    (hov : anyId (phaseHooksOf ov ph) hid = false) :
    docHasHookId (mergePhaseInto merged ov ph) hid = false := by
  rw [docHasHookId_eq_or] at hm ⊢
  intro ph2
  by_cases hpp : ph = ph2
  · subst hpp
    rw [phaseHooksOf_mergePhaseInto_same]
    cases hcase : (ov.hooks.getD emptyHookMap).get ph with
    | none => exact hm ph
    | some ovList =>
      have hole : phaseHooksOf ov ph = ovList := by
        simp [phaseHooksOf, hcase]
      rw [hole] at hov
      exact anyId_mergePhase_false ovList _ hid (hm ph)
        ((anyId_eq_false_iff ovList hid).1 hov)
  · rw [phaseHooksOf_mergePhaseInto_other merged ov ph ph2 hpp]
    exact hm ph2

theorem anyId_mergerMergeHookList_false (bl ol : List Hook)
    (ex : List String) (hid : String) (hex : hid ∈ ex)
    (hov : anyId ol hid = false) :
    anyId (mergerMergeHookList bl ol ex) hid = false := by
  rw [mergerMergeHookList, anyId_append]
  have h1 : anyId (bl.filter (fun h =>
      !(ex.contains h.id)
      && !(ol.any (fun o => o.id ≠ "" && o.id = h.id)))) hid = false := by
    rw [anyId_eq_false_iff]
    intro h hm hme
    have hkeep := (List.mem_filter.1 hm).2
    rw [hme] at hkeep
    have hc : ex.contains hid = true := by simpa using hex
    simp [hc] at hkeep
    exact hkeep.1 hex
  rw [h1, hov]
  rfl

theorem docHasHookId_mergerMergeConfigs (base ov : ConfigDoc)
    (ex : List String) (hid : String) (hexc : ov.exclude = some ex)
    (hex : hid ∈ ex) (hov : docHasHookId ov hid = false) :
    docHasHookId (mergerMergeConfigs base ov) hid = false := by
  rw [docHasHookId_eq_or] at hov ⊢
  intro ph
  have hlist := anyId_mergerMergeHookList_false (phaseHooksOf base ph)
    (phaseHooksOf ov ph) ex hid hex (hov ph)
  cases ph <;>
    (simp only [mergerMergeConfigs, mergerMergeHooks, phaseHooksOf,
       HookMap.get, Option.getD_some, hexc] at hlist ⊢
     split <;> simp_all [anyId])

/-- C4 (counterexample).  An overlay that excludes id `foo` while
itself declaring a `pre-tool` hook with id `foo` re-introduces the
id: both merge implementations apply the exclusion to the base before
adding the overlay's own hooks, so the merged result still contains a
hook with the excluded id, contradicting the claimed "zero hooks with
that id". -/
theorem exclusion_readded_by_overlay :
    fooOverlayDoc.exclude = some ["foo"]
    ∧ docHasHookId (loaderMergeConfigs fooBaseDoc fooOverlayDoc) "foo" = true
    ∧ docHasHookId (mergerMergeConfigs fooBaseDoc fooOverlayDoc) "foo" = true := by
  refine ⟨by decide, by decide, by decide⟩

/-- C4 (amended).  Exclusion is phase-agnostic and removes every base
hook with an excluded id from all three phases, in both merge
implementations — provided the overlay itself does not declare a hook
with that id (otherwise the overlay hook is merged in after the
exclusion and the id reappears). -/
theorem exclusion_removes_amended (base ov : ConfigDoc) (ex : List String)
    (hid : String) (hexc : ov.exclude = some ex) (hex : hid ∈ ex)
    (hov : docHasHookId ov hid = false) :
    docHasHookId (loaderMergeConfigs base ov) hid = false
    ∧ docHasHookId (mergerMergeConfigs base ov) hid = false := by
  constructor
  · have h1 : docHasHookId (ex.foldl removeHook base) hid = false :=
      docHasHookId_foldl_removeHook ex base hid hex
    have hovp : ∀ ph, anyId (phaseHooksOf ov ph) hid = false :=
      (docHasHookId_eq_or ov hid).1 hov
    have h2 := docHasHookId_mergePhaseInto _ ov Phase.preTool hid h1
      (hovp Phase.preTool)
    have h3 := docHasHookId_mergePhaseInto _ ov Phase.postTool hid h2
      (hovp Phase.postTool)
    have h4 := docHasHookId_mergePhaseInto _ ov Phase.stopPhase hid h3
      (hovp Phase.stopPhase)
    simpa only [loaderMergeConfigs, hexc] using h4
  · exact docHasHookId_mergerMergeConfigs base ov ex hid hexc hex hov

theorem exclusion_removes_amended_witness :
    docHasHookId (loaderMergeConfigs fooBaseDoc excludeOverlayDoc) "foo" = false
    ∧ docHasHookId (mergerMergeConfigs fooBaseDoc excludeOverlayDoc) "foo"
        = false :=
  exclusion_removes_amended fooBaseDoc excludeOverlayDoc ["foo"] "foo"
    rfl (by decide) (by decide)

theorem mergePhase_nil_of_nodup (l : List Hook) (hnd : (idsOf l).Nodup) :
    mergePhase [] l = l := by
  have h := mergePhase_shape l [] (by simp [idsOf]) hnd
  simpa [newHooksOf, anyId] using h

theorem mergerMergeHookList_nil_nil (l : List Hook) :
    mergerMergeHookList l [] [] = l := by
  simp [mergerMergeHookList]

theorem mergerF_empty (b : Option (List Hook)) :
    (if (mergerMergeHookList (b.getD []) [] []).isEmpty then none
     else some (mergerMergeHookList (b.getD []) [] [])) = normalizePhase b := by
  rw [mergerMergeHookList_nil_nil]
  cases b with
  | none => rfl
  | some l => cases l <;> rfl

theorem merger_empty_overlay (X : ConfigDoc) :
    mergerMergeConfigs X emptyDoc = normalizeHooksDoc X := by
  rcases X with ⟨hks, exc, ext, oth⟩
  simp only [mergerMergeConfigs, mergerMergeHooks, normalizeHooksDoc,
    emptyDoc, emptyHookMap, Option.getD_none, List.foldl_nil]
  rw [mergerF_empty, mergerF_empty, mergerF_empty]

theorem foldl_upsertKV_of_fresh :
    ∀ (l acc : List (String × String)),
      (∀ kv ∈ l, acc.any (fun p => p.1 = kv.1) = false) →
      (l.map Prod.fst).Nodup →
      l.foldl upsertKV acc = acc ++ l := by
  intro l
  induction l with
  | nil => intro acc _ _; simp
  | cons kv rest ih =>
    intro acc hfresh hnd
    have h0 : acc.any (fun p => p.1 = kv.1) = false := hfresh kv (by simp)
    have hstep : upsertKV acc kv = acc ++ [kv] := by simp [upsertKV, h0]
    have hk1 : kv.1 ∉ rest.map Prod.fst := (List.nodup_cons.1 (by simpa using hnd)).1
    have hnd1 : (rest.map Prod.fst).Nodup := (List.nodup_cons.1 (by simpa using hnd)).2
    have hfr : ∀ kv2 ∈ rest, (acc ++ [kv]).any (fun p => p.1 = kv2.1) = false := by
      intro kv2 h2
      rw [List.any_append]
      have ha : acc.any (fun p => p.1 = kv2.1) = false := hfresh kv2 (by simp [h2])
      have hb : ([kv].any (fun p => p.1 = kv2.1)) = false := by
        have : kv.1 ≠ kv2.1 := by
          intro he
          exact hk1 (he ▸ List.mem_map_of_mem Prod.fst h2)
        simp [this]
      rw [ha, hb]
      rfl
    simp only [List.foldl_cons, hstep]
    rw [ih (acc ++ [kv]) hfr hnd1, List.append_assoc, List.singleton_append]

theorem loaderMerge_empty_overlay (X : ConfigDoc) :
    loaderMergeConfigs X emptyDoc = X := rfl

theorem loaderMerge_empty_base (X : ConfigDoc)
    (hexc : X.exclude = none) (hext : X.extends_ = none)
    (hshape : goodHooksShape X = true)
    (hnd1 : (idsOf ((X.hooks.getD emptyHookMap).pre.getD [])).Nodup)
    (hnd2 : (idsOf ((X.hooks.getD emptyHookMap).post.getD [])).Nodup)
    (hnd3 : (idsOf ((X.hooks.getD emptyHookMap).stp.getD [])).Nodup)
    (hko : (X.others.map Prod.fst).Nodup) :
    loaderMergeConfigs emptyDoc X = X := by
  rcases X with ⟨hks, exc, ext, oth⟩
  dsimp only at hexc hext hshape hnd1 hnd2 hnd3 hko
  subst hexc
  subst hext
  have hfold : oth.foldl upsertKV [] = oth := by
    simpa using foldl_upsertKV_of_fresh oth [] (fun kv _ => rfl) hko
  cases hks with
  | none =>
    simp [loaderMergeConfigs, mergePhaseInto, emptyDoc, emptyHookMap,
      HookMap.get, hfold]
  | some hm =>
    rcases hm with ⟨p1, p2, p3⟩
    dsimp only [Option.getD_some] at hnd1 hnd2 hnd3 hshape
    cases p1 <;> cases p2 <;> cases p3 <;>
      first
      | (simp [loaderMergeConfigs, mergePhaseInto, emptyDoc, emptyHookMap,
           HookMap.get, HookMap.set, hfold]
         repeat' apply And.intro
         all_goals
           first
           | exact mergePhase_nil_of_nodup _ hnd1
           | exact mergePhase_nil_of_nodup _ hnd2
           | exact mergePhase_nil_of_nodup _ hnd3)
      | (simp [goodHooksShape] at hshape)

/-- C5 (counterexample).  For `config_merger.merge_configs`,
`merge({}, {})` is `{'hooks': {}}`, not `{}`: the `hooks` key is
always materialised, so `merge(X, {})` (and `merge({}, X)`) is not
data-equal to `X` at `X = {}`.  The loader's `_merge_configs` does
satisfy the identity at the same input. -/
theorem merge_empty_overlay_not_identity :
    mergerMergeConfigs emptyDoc emptyDoc ≠ emptyDoc
    ∧ (mergerMergeConfigs emptyDoc emptyDoc).hooks = some emptyHookMap
    ∧ emptyDoc.hooks = none
    ∧ loaderMergeConfigs emptyDoc emptyDoc = emptyDoc := by
  refine ⟨by decide, by decide, by decide, by decide⟩

/-- C5 (amended).  The loader's `_merge_configs` satisfies
`merge(X, {}) = X` exactly, for every document `X`.
`config_merger.merge_configs` instead returns `X` with its `hooks`
key normalised (the key is always present and phases with empty or
absent lists are dropped), so `merge(X, {}) = X` only for documents
already in that normal form.  For the loader, `merge({}, X)` is
data-equal to `X` for documents without `exclude`/`extends` keys
whose hook phases have pairwise-distinct ids, whose `hooks` key (if
present) has at least one phase key, and whose top-level keys are not
repeated — otherwise those keys are dropped or hooks with repeated
ids are collapsed. -/
theorem merge_identity_amended :
    (∀ X : ConfigDoc, loaderMergeConfigs X emptyDoc = X)
    ∧ (∀ X : ConfigDoc, mergerMergeConfigs X emptyDoc = normalizeHooksDoc X)
    ∧ (∀ X : ConfigDoc, X.exclude = none → X.extends_ = none →
        goodHooksShape X = true →
        (idsOf ((X.hooks.getD emptyHookMap).pre.getD [])).Nodup →
        (idsOf ((X.hooks.getD emptyHookMap).post.getD [])).Nodup →
        (idsOf ((X.hooks.getD emptyHookMap).stp.getD [])).Nodup →
        (X.others.map Prod.fst).Nodup →
        loaderMergeConfigs emptyDoc X = X) :=
  ⟨loaderMerge_empty_overlay, merger_empty_overlay,
    fun X h1 h2 h3 h4 h5 h6 h7 =>
      loaderMerge_empty_base X h1 h2 h3 h4 h5 h6 h7⟩

theorem merge_identity_amended_witness :
    loaderMergeConfigs sampleDoc emptyDoc = sampleDoc
    ∧ mergerMergeConfigs sampleDoc emptyDoc = normalizeHooksDoc sampleDoc
    ∧ loaderMergeConfigs emptyDoc sampleDoc = sampleDoc :=
  ⟨merge_identity_amended.1 sampleDoc,
    merge_identity_amended.2.1 sampleDoc,
    merge_identity_amended.2.2 sampleDoc rfl rfl (by decide) (by decide)
      (by decide) (by decide) (by decide)⟩
